import Mathlib

/-!
Verification of the fairseq2 native data-loading core: the streaming record
reader (`record_reader.cc`), the counting data source (`count_data_source.cc`)
and the separator split of the immutable string (`immutable_string.cc`).

Bytes are modelled as natural numbers, memory blocks as lists of bytes, the
chunked stream as the list of chunks it will yield (an exhausted list yields
the empty block, which signals end of input).
-/

set_option maxHeartbeats 1000000

namespace Fairseq2

/-- A memory block, modelled by its byte contents. -/
abbrev MemoryBlock := List Nat

/-- Mutable state of a `record_reader`: the current chunk, the previously
accumulated chunks of the in-progress record, and the chunks the underlying
stream has still to yield (`read_chunk` pops the head; an exhausted list
yields the empty block). -/
structure ReaderState where
  currentChunk : MemoryBlock
  previousChunks : List MemoryBlock
  stream : List MemoryBlock
deriving DecidableEq, Repr

/-- Outcome of `record_reader::load_next_record`: end of data, a truncation
failure carrying the reported byte count, or a found record boundary together
with the reader fields at that moment (`current_chunk_`, `previous_chunks_`,
the remaining stream, `record_length_` and `record_end_offset_`). -/
inductive LoadResult where
  | endOfData
  | truncated (reported : Nat)
  | found (currentChunk : MemoryBlock) (previousChunks : List MemoryBlock)
      (stream : List MemoryBlock) (recordLength recordEndOffset : Nat)
deriving DecidableEq, Repr

/-- The loop of `record_reader::load_next_record`: apply the boundary strategy
`find` to the current chunk; when no boundary is found pull the next chunk.
An empty pull means end of input: end of data if the current chunk is empty,
otherwise a truncation error reporting `current_chunk_.size()`.  A non-empty
pull moves the current chunk to the accumulated list, adds its length to the
running record length, adopts the pulled chunk and continues with the
first-chunk flag cleared. -/
def loadNextRecordLoop (find : MemoryBlock → Bool → Option Nat) :
    List MemoryBlock → MemoryBlock → List MemoryBlock → Nat → Bool → LoadResult
  | stream, cur, prev, recLen, first =>
    match find cur first with
    | some off => .found cur prev stream (recLen + off) off
    | none =>
      match stream with
      | [] => if cur = [] then LoadResult.endOfData else LoadResult.truncated cur.length
      | nextChunk :: rest =>
        if nextChunk = [] then
          if cur = [] then LoadResult.endOfData else LoadResult.truncated cur.length
        else
          loadNextRecordLoop find rest nextChunk (prev ++ [cur]) (recLen + cur.length) false

/-- `record_reader::extract_record`: with no previously accumulated chunks the
record is the first `record_length_` bytes of the current chunk (a shared
sub-range); otherwise (`copy_split_record`) a fresh buffer holding every
previous chunk in order followed by the first `record_end_offset_` bytes of
the current chunk. -/
def extractRecord (cur : MemoryBlock) (prev : List MemoryBlock)
    (recordLength recordEndOffset : Nat) : MemoryBlock :=
  if prev = [] then cur.take recordLength
  else prev.flatten ++ cur.take recordEndOffset

/-- Outcome of `record_reader::next`: the end-of-data signal (the empty
block), a `record_error` truncation failure, or a record together with the
post-call reader state. -/
inductive NextResult where
  | endOfData
  | truncated (reported : Nat)
  | record (bytes : MemoryBlock) (state : ReaderState)
deriving DecidableEq, Repr

/-- `record_reader::next`: load the next record, extract it, then
`move_to_next_record` (the current chunk becomes its tail past the record end
offset and the accumulated list is cleared). -/
def next (find : MemoryBlock → Bool → Option Nat) (st : ReaderState) : NextResult :=
  match loadNextRecordLoop find st.stream st.currentChunk st.previousChunks 0 true with
  | .endOfData => .endOfData
  | .truncated n => .truncated n
  | .found cur prev stream recLen off =>
      .record (extractRecord cur prev recLen off) ⟨cur.drop off, [], stream⟩

/-- How a full drain of the reader finished. -/
inductive DrainStatus where
  | ended
  | truncatedAt (reported : Nat)
  | fuelOut
deriving DecidableEq, Repr

/-- Repeatedly call `next`, collecting the produced records, until end of data
or a truncation failure; `fuel` bounds the number of calls. -/
def drain (find : MemoryBlock → Bool → Option Nat) :
    Nat → ReaderState → List MemoryBlock × DrainStatus
  | 0, _ => ([], .fuelOut)
  | fuel + 1, st =>
    match next find st with
    | .endOfData => ([], .ended)
    | .truncated n => ([], .truncatedAt n)
    | .record bytes st2 =>
      let r := drain find fuel st2
      (bytes :: r.1, r.2)

/-- Position of the first occurrence of the byte `d`, scanning left to right. -/
def firstIdx (d : Nat) : List Nat → Option Nat
  | [] => none
  | b :: rest => if b = d then some 0 else (firstIdx d rest).map (· + 1)

/-- Modelled from the spec: the default line-delimited record boundary
strategy (its concrete `find_record_end` override lives outside the sources at
hand).  The boundary is found when the delimiter byte occurs in the chunk
under examination and the returned record-end offset is the delimiter's
position plus one. -/
def lineFind (d : Nat) (chunk : MemoryBlock) (_first : Bool) : Option Nat :=
  (firstIdx d chunk).map (· + 1)

/-- Modelled from the spec: the line reader convention consumes through the
delimiter while the emitted record excludes it, so each emitted record is the
extracted record without its final delimiter byte. -/
def lineDrainEmitted (d : Nat) (fuel : Nat) (chunks : List MemoryBlock) :
    List MemoryBlock × DrainStatus :=
  let r := drain (lineFind d) fuel ⟨[], [], chunks⟩
  (r.1.map List.dropLast, r.2)

/-- Records of the flat, unchunked input under the line convention: each
record is a maximal segment ending at a delimiter, delimiter included; bytes
after the last delimiter form no record.  The accumulator holds the bytes of
the current partial segment, reversed. -/
def lineRecordsFlatGo (d : Nat) : List Nat → List Nat → List (List Nat)
  | [], _ => []
  | b :: rest, acc =>
    if b = d then (acc.reverse ++ [d]) :: lineRecordsFlatGo d rest []
    else lineRecordsFlatGo d rest (b :: acc)

/-- Records of the flat input under the line convention. -/
def lineRecordsFlat (d : Nat) (s : List Nat) : List (List Nat) :=
  lineRecordsFlatGo d s []

/-- The bytes after the last delimiter of the flat input (the unterminated
partial record); accumulator as in `lineRecordsFlatGo`. -/
def lineLeftoverFlatGo (d : Nat) : List Nat → List Nat → List Nat
  | [], acc => acc.reverse
  | b :: rest, acc =>
    if b = d then lineLeftoverFlatGo d rest []
    else lineLeftoverFlatGo d rest (b :: acc)

/-- The bytes after the last delimiter of the flat input. -/
def lineLeftoverFlat (d : Nat) (s : List Nat) : List Nat :=
  lineLeftoverFlatGo d s []

/-- A pipeline element produced by the counting source: a bare integer, or a
single-entry dict when a field name is configured. -/
inductive Data where
  | int (value : Int)
  | dict (key : String) (value : Int)
deriving DecidableEq, Repr

/-- A value on a position tape (the closed variant of primitives used here). -/
inductive TapeVal where
  | int (value : Int)
  | str (value : String)
deriving DecidableEq, Repr

/-- State of a `count_data_source`: the counter, the configured start value
and the optional field name. -/
structure CountState where
  counter : Int
  start : Int
  fieldName : Option String
deriving DecidableEq, Repr

/-- `count_data_source::next`: returns `counter_++` (wrapped in a single-entry
dict when a field name is configured) and never the end-of-data signal. -/
def countNext (s : CountState) : Option Data × CountState :=
  (some (match s.fieldName with
         | some k => Data.dict k s.counter
         | none => Data.int s.counter),
   { s with counter := s.counter + 1 })

/-- `count_data_source::reset`. -/
def countReset (s : CountState) : CountState :=
  { s with counter := s.start }

/-- `count_data_source::record_position`: appends `counter_` to the tape. -/
def countRecordPosition (s : CountState) (t : List TapeVal) : List TapeVal :=
  t ++ [TapeVal.int s.counter]

/-- `count_data_source::reload_position`: reads one integer off the tape into
`counter_`; an exhausted tape or a type mismatch fails. -/
def countReloadPosition (s : CountState) :
    List TapeVal → Option (CountState × List TapeVal)
  | TapeVal.int i :: rest => some ({ s with counter := i }, rest)
  | _ => none

/-- The values produced by `n` successive `next` calls on the counting
source. -/
def produceN (s : CountState) : Nat → List Data
  | 0 => []
  | n + 1 =>
    match countNext s with
    | (some v, s2) => v :: produceN s2 n
    | (none, _) => []

/-- The counting-source state after `n` successive `next` calls. -/
def stepN (s : CountState) : Nat → CountState
  | 0 => s
  | n + 1 => stepN (countNext s).2 n

/-- The scan loop of `immutable_string::split(char, handler)`: `run` holds the
bytes between the last boundary (`offset`) and the cursor, reversed; on the
separator a non-empty run is emitted and the boundary moves past the
separator; after the loop a non-empty tail is emitted. -/
def splitGo (sep : Nat) : List Nat → List Nat → List (List Nat)
  | [], run => if run = [] then [] else [run.reverse]
  | c :: rest, run =>
    if c = sep then
      (if run = [] then splitGo sep rest [] else run.reverse :: splitGo sep rest [])
    else splitGo sep rest (c :: run)

/-- `immutable_string::split(char)`: materializes the views emitted by the
callback overload, in order. -/
def split (sep : Nat) (s : List Nat) : List (List Nat) :=
  splitGo sep s []

/-! ### Facts about `firstIdx` and the line strategy -/

theorem firstIdx_lt_length {d : Nat} :
    ∀ {s : List Nat} {i : Nat}, firstIdx d s = some i → i < s.length := by
  intro s
  induction s with
  | nil => intro i h; simp [firstIdx] at h
  | cons b rest ih =>
    intro i h
    by_cases hb : b = d
    · simp only [firstIdx, if_pos hb] at h
      cases h
      simp
    · simp [firstIdx, hb] at h
      obtain ⟨j, hj, rfl⟩ := h
      have := ih hj
      simp
      omega

theorem lineFind_le (d : Nat) (c : MemoryBlock) (f : Bool) (i : Nat)
    (h : lineFind d c f = some i) : i ≤ c.length := by
  simp [lineFind] at h
  obtain ⟨j, hj, rfl⟩ := h
  exact firstIdx_lt_length hj

theorem firstIdx_append_some {d : Nat} {a : List Nat} {i : Nat} (b : List Nat)
    (h : firstIdx d a = some i) : firstIdx d (a ++ b) = some i := by
  induction a generalizing i with
  | nil => simp [firstIdx] at h
  | cons a0 a1 ih =>
    by_cases ha : a0 = d
    · simp [firstIdx, ha] at h ⊢
      omega
    · simp [firstIdx, ha] at h ⊢
      obtain ⟨j, hj, rfl⟩ := h
      exact ⟨j, ih hj, rfl⟩

theorem firstIdx_append_none {d : Nat} {a b : List Nat}
    (ha : firstIdx d a = none) (hb : firstIdx d b = none) :
    firstIdx d (a ++ b) = none := by
  induction a with
  | nil => simpa using hb
  | cons a0 a1 ih =>
    by_cases h0 : a0 = d
    · simp [firstIdx, h0] at ha
    · simp [firstIdx, h0] at ha ⊢
      exact ih ha

theorem firstIdx_append_none_inv {d : Nat} {a b : List Nat} {i : Nat}
    (ha : firstIdx d a = none) (h : firstIdx d (a ++ b) = some i) :
    ∃ j, firstIdx d b = some j ∧ i = a.length + j := by
  induction a generalizing i with
  | nil => exact ⟨i, by simpa using h, by simp⟩
  | cons a0 a1 ih =>
    by_cases h0 : a0 = d
    · simp [firstIdx, h0] at ha
    · simp [firstIdx, h0] at ha h
      obtain ⟨j, hj, rfl⟩ := h
      obtain ⟨k, hk, rfl⟩ := ih ha hj
      exact ⟨k, hk, by simp; omega⟩

theorem firstIdx_append_left_none {d : Nat} {a b : List Nat}
    (h : firstIdx d (a ++ b) = none) : firstIdx d a = none := by
  cases ha : firstIdx d a with
  | none => rfl
  | some i => rw [firstIdx_append_some b ha] at h; cases h

/-! ### The `load_next_record` loop -/

/-- With a non-empty current chunk, the loop can never report end of data:
end of data requires an empty pull while nothing at all is buffered. -/
theorem loadNextRecordLoop_ne_endOfData
    (find : MemoryBlock → Bool → Option Nat) :
    ∀ (stream : List MemoryBlock) (cur : MemoryBlock) (prev : List MemoryBlock)
      (recLen : Nat) (first : Bool), cur ≠ [] →
      loadNextRecordLoop find stream cur prev recLen first ≠ .endOfData := by
  intro stream
  induction stream with
  | nil =>
    intro cur prev recLen first hcur
    cases h : find cur first with
    | some off => simp [loadNextRecordLoop, h]
    | none => simp [loadNextRecordLoop, h, hcur]
  | cons c rest ih =>
    intro cur prev recLen first hcur
    cases h : find cur first with
    | some off => simp [loadNextRecordLoop, h]
    | none =>
      by_cases hc : c = []
      · simp [loadNextRecordLoop, h, hc, hcur]
      · simp only [loadNextRecordLoop, h, hc, if_neg hc]
        exact ih c (prev ++ [cur]) (recLen + cur.length) false hc

/-- Structural invariant of the loop on success: the accumulated list grew by
some suffix `mid`, the record length counts exactly the adopted bytes plus the
final offset, and the offset respects the strategy's in-chunk bound. -/
theorem loadNextRecordLoop_found_inv
    {find : MemoryBlock → Bool → Option Nat}
    (hfind : ∀ c (f : Bool) i, find c f = some i → i ≤ c.length) :
    ∀ (stream : List MemoryBlock) (cur : MemoryBlock) (prev : List MemoryBlock)
      (recLen : Nat) (first : Bool)
      {cur2 prev2 stream2 recLen2 off},
      loadNextRecordLoop find stream cur prev recLen first
        = .found cur2 prev2 stream2 recLen2 off →
      ∃ mid, prev2 = prev ++ mid ∧
        recLen2 = recLen + mid.flatten.length + off ∧
        off ≤ cur2.length := by
  intro stream
  induction stream with
  | nil =>
    intro cur prev recLen first cur2 prev2 stream2 recLen2 off h
    cases hf : find cur first with
    | some o =>
      rw [loadNextRecordLoop, hf] at h
      cases h
      exact ⟨[], by simp, by simp, hfind _ _ _ hf⟩
    | none =>
      rw [loadNextRecordLoop, hf] at h
      by_cases hcur : cur = [] <;> simp [hcur] at h
  | cons c rest ih =>
    intro cur prev recLen first cur2 prev2 stream2 recLen2 off h
    cases hf : find cur first with
    | some o =>
      rw [loadNextRecordLoop, hf] at h
      cases h
      exact ⟨[], by simp, by simp, hfind _ _ _ hf⟩
    | none =>
      rw [loadNextRecordLoop, hf] at h
      by_cases hc : c = []
      · by_cases hcur : cur = [] <;> simp [hc, hcur] at h
      · simp only [if_neg hc] at h
        obtain ⟨mid, hprev, hlen, hoff⟩ :=
          ih c (prev ++ [cur]) (recLen + cur.length) false h
        refine ⟨cur :: mid, by simp [hprev], ?_, hoff⟩
        simp only [List.flatten_cons, List.length_append] at hlen ⊢
        omega

theorem firstIdx_append_right_none {d : Nat} :
    ∀ {a b : List Nat}, firstIdx d (a ++ b) = none → firstIdx d b = none := by
  intro a
  induction a with
  | nil => intro b h; simpa using h
  | cons a0 a1 ih =>
    intro b h
    by_cases h0 : a0 = d
    · simp [firstIdx, h0] at h
    · simp only [List.cons_append, firstIdx, if_neg h0, Option.map_eq_none'] at h
      exact ih (by simpa using h)

/-- With the line strategy, when the remaining input holds no delimiter the
loop ends the stream: end of data when nothing at all remains, otherwise a
truncation error reporting the length of the chunk under examination at the
moment the empty pull is observed (the last stream chunk, or the initial
current chunk when the stream is already exhausted). -/
theorem loadNextRecordLoop_line_none {d : Nat} :
    ∀ (stream : List MemoryBlock), (∀ c ∈ stream, c ≠ []) →
      ∀ (cur : MemoryBlock) (prev : List MemoryBlock) (recLen : Nat) (first : Bool),
        firstIdx d (cur ++ stream.flatten) = none →
        loadNextRecordLoop (lineFind d) stream cur prev recLen first =
          (if cur ++ stream.flatten = [] then .endOfData
           else .truncated ((stream.getLastD cur).length)) := by
  intro stream
  induction stream with
  | nil =>
    intro _ cur prev recLen first h
    rw [List.flatten_nil, List.append_nil] at h
    have hf : lineFind d cur first = none := by simp [lineFind, h]
    rw [loadNextRecordLoop, hf]
    by_cases hcur : cur = [] <;> simp [hcur, List.getLastD]
  | cons c rest ih =>
    intro hne cur prev recLen first h
    have hc : c ≠ [] := hne c (by simp)
    have hcur : firstIdx d cur = none := firstIdx_append_left_none h
    have hf : lineFind d cur first = none := by simp [lineFind, hcur]
    rw [loadNextRecordLoop, hf]
    simp only [if_neg hc]
    have hrest : firstIdx d (c ++ rest.flatten) = none := by
      have := firstIdx_append_right_none h
      simpa [List.flatten_cons] using this
    rw [ih (fun x hx => hne x (by simp [hx])) c (prev ++ [cur])
      (recLen + cur.length) false hrest]
    rw [if_neg (by simp [hc]), if_neg (by simp [List.flatten_cons, hc])]
    rw [List.getLastD_cons]

/-- With the line strategy, when the remaining input holds its first delimiter
at position `i` the loop succeeds: the record length is the running counter
plus `i + 1`; some prefix of `k ≤ i` remaining bytes was adopted into the
accumulated list, and the record-end offset is the rest of the record within
the chunk where the delimiter sits. -/
theorem loadNextRecordLoop_line_some {d : Nat} :
    ∀ (stream : List MemoryBlock), (∀ c ∈ stream, c ≠ []) →
      ∀ (cur : MemoryBlock) (prev : List MemoryBlock) (recLen : Nat) (first : Bool)
        (i : Nat),
        firstIdx d (cur ++ stream.flatten) = some i →
        ∃ k cur2 prev2 stream2,
          loadNextRecordLoop (lineFind d) stream cur prev recLen first =
            .found cur2 prev2 stream2 (recLen + (i + 1)) (i + 1 - k) ∧
          k ≤ i ∧
          prev2.flatten = prev.flatten ++ (cur ++ stream.flatten).take k ∧
          (prev2 = [] → prev = [] ∧ k = 0) ∧
          cur2 ++ stream2.flatten = (cur ++ stream.flatten).drop k ∧
          (∀ c ∈ stream2, c ≠ []) ∧
          i + 1 - k ≤ cur2.length := by
  intro stream
  induction stream with
  | nil =>
    intro _ cur prev recLen first i h
    rw [List.flatten_nil, List.append_nil] at h
    have hf : lineFind d cur first = some (i + 1) := by simp [lineFind, h]
    refine ⟨0, cur, prev, [], ?_, by omega, by simp, fun hp => ⟨hp, rfl⟩, by simp, by simp, ?_⟩
    · rw [loadNextRecordLoop, hf]
      rfl
    · have := firstIdx_lt_length h
      omega
  | cons c rest ih =>
    intro hne cur prev recLen first i h
    have hc : c ≠ [] := hne c (by simp)
    rw [List.flatten_cons] at h
    cases hcur : firstIdx d cur with
    | some j =>
      have hj : firstIdx d (cur ++ (c ++ rest.flatten)) = some j :=
        firstIdx_append_some _ hcur
      rw [h] at hj
      injection hj with hj
      subst hj
      have hf : lineFind d cur first = some (i + 1) := by simp [lineFind, hcur]
      refine ⟨0, cur, prev, c :: rest, ?_, by omega, by simp,
        fun hp => ⟨hp, rfl⟩, by simp, hne, ?_⟩
      · rw [loadNextRecordLoop, hf]
        rfl
      · have := firstIdx_lt_length hcur
        omega
    | none =>
      have hf : lineFind d cur first = none := by simp [lineFind, hcur]
      obtain ⟨j, hj, hij⟩ := firstIdx_append_none_inv hcur h
      obtain ⟨k2, cur2, prev2, stream2, hload, hkle, hprevf, hprevnil, hcs, hne2, hoff⟩ :=
        ih (fun x hx => hne x (by simp [hx])) c (prev ++ [cur])
          (recLen + cur.length) false j hj
      have e1 : recLen + (i + 1) = recLen + cur.length + (j + 1) := by omega
      have e2 : i + 1 - (cur.length + k2) = j + 1 - k2 := by omega
      have hsplit : ∀ n, (cur ++ (c ++ rest.flatten)).take (cur.length + n)
          = cur ++ (c ++ rest.flatten).take n := by
        intro n
        rw [List.take_add, List.take_left, List.drop_left]
      have hdropsplit : ∀ n, (cur ++ (c ++ rest.flatten)).drop (cur.length + n)
          = (c ++ rest.flatten).drop n := by
        intro n
        rw [← List.drop_drop, List.drop_left]
      refine ⟨cur.length + k2, cur2, prev2, stream2, ?_, by omega, ?_, ?_, ?_, hne2, ?_⟩
      · rw [loadNextRecordLoop, hf]
        simp only [if_neg hc]
        rw [e1, e2]
        exact hload
      · rw [List.flatten_cons, hsplit k2, hprevf]
        simp [List.flatten_append, List.append_assoc]
      · intro hp
        exact absurd (hprevnil hp).1 (by simp)
      · rw [List.flatten_cons, hdropsplit k2, hcs]
      · omega

/-- `next` under the line strategy when no delimiter remains. -/
theorem next_line_none {d : Nat} {cur : MemoryBlock} {stream : List MemoryBlock}
    (hne : ∀ c ∈ stream, c ≠ [])
    (h : firstIdx d (cur ++ stream.flatten) = none) :
    next (lineFind d) ⟨cur, [], stream⟩ =
      (if cur ++ stream.flatten = [] then .endOfData
       else .truncated ((stream.getLastD cur).length)) := by
  have hload := loadNextRecordLoop_line_none stream hne cur [] 0 true h
  by_cases hflat : cur ++ stream.flatten = []
  · rw [if_pos hflat] at hload
    simp [next, hload, hflat]
  · rw [if_neg hflat] at hload
    simp [next, hload, hflat]

/-- `next` under the line strategy when the remaining input has its first
delimiter at position `i`: the produced record is the first `i + 1` remaining
bytes and the new state holds exactly the remaining bytes past them. -/
theorem next_line_some {d : Nat} {cur : MemoryBlock} {stream : List MemoryBlock}
    {i : Nat} (hne : ∀ c ∈ stream, c ≠ [])
    (h : firstIdx d (cur ++ stream.flatten) = some i) :
    ∃ cur2 stream2,
      next (lineFind d) ⟨cur, [], stream⟩ =
        .record ((cur ++ stream.flatten).take (i + 1)) ⟨cur2, [], stream2⟩ ∧
      cur2 ++ stream2.flatten = (cur ++ stream.flatten).drop (i + 1) ∧
      (∀ c ∈ stream2, c ≠ []) := by
  obtain ⟨k, cur2, prev2, stream2, hload, hk, hprevf, hprevnil, hcs, hne2, hoff⟩ :=
    loadNextRecordLoop_line_some stream hne cur [] 0 true i h
  have hbytes : extractRecord cur2 prev2 (0 + (i + 1)) (i + 1 - k)
      = (cur ++ stream.flatten).take (i + 1) := by
    by_cases hp : prev2 = []
    · obtain ⟨-, hk0⟩ := hprevnil hp
      subst hk0
      have hcs0 : cur2 ++ stream2.flatten = cur ++ stream.flatten := by simpa using hcs
      have h1 : i + 1 ≤ cur2.length := by simpa using hoff
      simp only [extractRecord, if_pos hp, Nat.zero_add]
      rw [← hcs0, List.take_append_of_le_length h1]
    · have e3 : k + (i + 1 - k) = i + 1 := by omega
      simp only [extractRecord, if_neg hp]
      calc prev2.flatten ++ cur2.take (i + 1 - k)
          = (cur ++ stream.flatten).take k ++ cur2.take (i + 1 - k) := by
            rw [hprevf]; simp
        _ = (cur ++ stream.flatten).take k
              ++ ((cur ++ stream.flatten).drop k).take (i + 1 - k) := by
            rw [← hcs, List.take_append_of_le_length hoff]
        _ = (cur ++ stream.flatten).take (k + (i + 1 - k)) :=
            (List.take_add _ _ _).symm
        _ = (cur ++ stream.flatten).take (i + 1) := by rw [e3]
  refine ⟨cur2.drop (i + 1 - k), stream2, ?_, ?_, hne2⟩
  · simp only [next, hload, hbytes]
  · rw [(List.drop_append_of_le_length hoff).symm, hcs, List.drop_drop]
    congr 1
    omega

/-- When the flat input holds no delimiter there are no records and the whole
input is the leftover partial record. -/
theorem lineFlatGo_none {d : Nat} :
    ∀ (s acc : List Nat), firstIdx d s = none →
      lineRecordsFlatGo d s acc = [] ∧
      lineLeftoverFlatGo d s acc = acc.reverse ++ s := by
  intro s
  induction s with
  | nil => intro acc _; simp [lineRecordsFlatGo, lineLeftoverFlatGo]
  | cons b rest ih =>
    intro acc h
    by_cases hb : b = d
    · simp [firstIdx, hb] at h
    · simp only [firstIdx, if_neg hb, Option.map_eq_none'] at h
      obtain ⟨h1, h2⟩ := ih (b :: acc) h
      constructor
      · simp [lineRecordsFlatGo, if_neg hb, h1]
      · simp only [lineLeftoverFlatGo, if_neg hb, h2]
        simp

/-- Unfolding of the flat record and leftover functions at the first
delimiter. -/
theorem lineFlatGo_some {d : Nat} :
    ∀ (s : List Nat) (i : Nat), firstIdx d s = some i →
      ∀ acc,
        lineRecordsFlatGo d s acc
          = (acc.reverse ++ s.take (i + 1)) :: lineRecordsFlatGo d (s.drop (i + 1)) [] ∧
        lineLeftoverFlatGo d s acc = lineLeftoverFlatGo d (s.drop (i + 1)) [] := by
  intro s
  induction s with
  | nil => intro i h; simp [firstIdx] at h
  | cons b rest ih =>
    intro i h acc
    by_cases hb : b = d
    · simp only [firstIdx, if_pos hb] at h
      cases h
      constructor
      · simp [lineRecordsFlatGo, hb]
      · simp [lineLeftoverFlatGo, hb]
    · simp only [firstIdx, if_neg hb, Option.map_eq_some'] at h
      obtain ⟨j, hj, rfl⟩ := h
      obtain ⟨h1, h2⟩ := ih j hj (b :: acc)
      constructor
      · simp only [lineRecordsFlatGo, if_neg hb]
        rw [h1]
        simp [List.take_succ_cons, List.drop_succ_cons]
      · simp only [lineLeftoverFlatGo, if_neg hb]
        rw [h2]
        simp [List.drop_succ_cons]

/-- The records followed by the leftover reassemble the flat input. -/
theorem lineFlatGo_join {d : Nat} :
    ∀ (s acc : List Nat),
      (lineRecordsFlatGo d s acc).flatten ++ lineLeftoverFlatGo d s acc
        = acc.reverse ++ s := by
  intro s
  induction s with
  | nil => intro acc; simp [lineRecordsFlatGo, lineLeftoverFlatGo]
  | cons b rest ih =>
    intro acc
    by_cases hb : b = d
    · simp only [lineRecordsFlatGo, lineLeftoverFlatGo, if_pos hb, List.flatten_cons]
      rw [List.append_assoc, ih []]
      simp [hb]
    · simp only [lineRecordsFlatGo, lineLeftoverFlatGo, if_neg hb]
      rw [ih (b :: acc)]
      simp

/-- Refinement: draining the reader over any all-non-empty chunking, with
enough fuel, produces exactly the flat-input records; it reaches the clean
end-of-sequence precisely when no partial record is left over. -/
theorem drain_line {d : Nat} :
    ∀ (fuel : Nat) (cur : MemoryBlock) (stream : List MemoryBlock),
      (∀ c ∈ stream, c ≠ []) →
      (cur ++ stream.flatten).length < fuel →
      (drain (lineFind d) fuel ⟨cur, [], stream⟩).1
          = lineRecordsFlat d (cur ++ stream.flatten) ∧
      ((drain (lineFind d) fuel ⟨cur, [], stream⟩).2 = .ended ↔
        lineLeftoverFlat d (cur ++ stream.flatten) = []) := by
  intro fuel
  induction fuel with
  | zero => intro cur stream _ hlt; omega
  | succ f ih =>
    intro cur stream hne hlt
    cases hfi : firstIdx d (cur ++ stream.flatten) with
    | none =>
      have hnext := next_line_none hne hfi
      have hrec := (lineFlatGo_none (cur ++ stream.flatten) [] hfi).1
      have hleft := (lineFlatGo_none (cur ++ stream.flatten) [] hfi).2
      by_cases hflat : cur ++ stream.flatten = []
      · rw [if_pos hflat] at hnext
        have hd : drain (lineFind d) (f + 1) ⟨cur, [], stream⟩ = ([], .ended) := by
          simp [drain, hnext]
        rw [hd]
        exact ⟨by simp [lineRecordsFlat, hrec],
          by simp [lineLeftoverFlat, hleft, hflat, lineLeftoverFlatGo]⟩
      · rw [if_neg hflat] at hnext
        have hd : drain (lineFind d) (f + 1) ⟨cur, [], stream⟩
            = ([], .truncatedAt ((stream.getLastD cur).length)) := by
          simp [drain, hnext]
        rw [hd]
        exact ⟨by simp [lineRecordsFlat, hrec],
          by simp [lineLeftoverFlat, hleft, hflat]⟩
    | some i =>
      obtain ⟨cur2, stream2, hnext, hcs, hne2⟩ := next_line_some hne hfi
      have hi := firstIdx_lt_length hfi
      have hlt2 : (cur2 ++ stream2.flatten).length < f := by
        rw [hcs]
        simp only [List.length_drop]
        omega
      obtain ⟨ih1, ih2⟩ := ih cur2 stream2 hne2 hlt2
      rw [hcs] at ih1 ih2
      have hrec := (lineFlatGo_some (cur ++ stream.flatten) i hfi []).1
      have hleft := (lineFlatGo_some (cur ++ stream.flatten) i hfi []).2
      have hd : drain (lineFind d) (f + 1) ⟨cur, [], stream⟩
          = ((cur ++ stream.flatten).take (i + 1)
              :: (drain (lineFind d) f ⟨cur2, [], stream2⟩).1,
             (drain (lineFind d) f ⟨cur2, [], stream2⟩).2) := by
        simp [drain, hnext]
      rw [hd]
      constructor
      · simp only [lineRecordsFlat] at ih1 ⊢
        rw [hrec, ih1]
        simp
      · simp only [lineLeftoverFlat] at ih2 ⊢
        rw [hleft, ← ih2]

/-- `produceN` ignores the configured start value: only the counter and the
field name determine the produced values. -/
theorem produceN_start_irrelevant :
    ∀ (n : Nat) (c s1 s2 : Int) (fn : Option String),
      produceN ⟨c, s1, fn⟩ n = produceN ⟨c, s2, fn⟩ n := by
  intro n
  induction n with
  | zero => intros; rfl
  | succ m ih =>
    intro c s1 s2 fn
    simp only [produceN, countNext]
    rw [ih (c + 1) s1 s2 fn]

/-! ### Claim theorems -/

/-- C1 (counterexample): for the stream `["ab", "cd"]` with no delimiter the
reader fails with a truncation error reporting 2 bytes — the current chunk
only — not the 4 buffered bytes of the unterminated partial record claimed
(sum of the accumulated chunk "ab" and the current chunk "cd"). -/
theorem truncation_report_counterexample :
    next (lineFind 10) ⟨[], [], [[97, 98], [99, 100]]⟩ = .truncated 2 ∧
    next (lineFind 10) ⟨[], [], [[97, 98], [99, 100]]⟩ ≠ .truncated 4 := by
  constructor <;> decide

/-- C1 (amended): when the stream ends while at least one byte of a partial
record is buffered, `next` fails with a truncation error, and the byte count
it reports is the length of the chunk under examination when the empty pull
is observed (the last stream chunk, or the initial current chunk for an
already-exhausted stream) — not the total buffered byte count. -/
theorem truncation_reports_current_chunk (d : Nat) (cur : MemoryBlock)
    (stream : List MemoryBlock) (hne : ∀ c ∈ stream, c ≠ [])
    (hnone : firstIdx d (cur ++ stream.flatten) = none)
    (hnonempty : cur ++ stream.flatten ≠ []) :
    next (lineFind d) ⟨cur, [], stream⟩ =
      .truncated ((stream.getLastD cur).length) := by
  rw [next_line_none hne hnone, if_neg hnonempty]

/-- Witness for C1 (amended) at the stream `["ab", "cd"]`. -/
theorem truncation_reports_current_chunk_witness :
    next (lineFind 10) ⟨[], [], [[97, 98], [99, 100]]⟩ = .truncated 2 := by
  have h := truncation_reports_current_chunk 10 [] [[97, 98], [99, 100]]
    (by decide) (by decide) (by decide)
  simpa using h

/-- C2 (counterexample): a boundary strategy obeying the pluggable contract
(a pure function of the supplied chunk bytes with in-chunk offsets) under
which re-chunking the same input is visible in the output: the strategy that
ends a record after two bytes of any chunk holding at least two.  Over
`"abcd"` as one chunk the drain yields records `"ab"`, `"cd"`; over chunks
`["a", "bcd"]` it yields `"abc"`. -/
theorem rechunk_invariance_counterexample :
    (∀ (c : MemoryBlock) (f : Bool) (i : Nat),
        (fun (c : MemoryBlock) (_ : Bool) =>
          if 2 ≤ c.length then some 2 else none) c f = some i → i ≤ c.length) ∧
    ([[97, 98, 99, 100]] : List MemoryBlock).flatten
      = ([[97], [98, 99, 100]] : List MemoryBlock).flatten ∧
    (drain (fun (c : MemoryBlock) (_ : Bool) =>
        if 2 ≤ c.length then some 2 else none) 10 ⟨[], [], [[97, 98, 99, 100]]⟩).1
      ≠ (drain (fun (c : MemoryBlock) (_ : Bool) =>
        if 2 ≤ c.length then some 2 else none) 10 ⟨[], [], [[97], [98, 99, 100]]⟩).1 := by
  refine ⟨?_, by decide, by decide⟩
  intro c f i h
  have h2 : (if 2 ≤ c.length then some 2 else none) = some i := h
  by_cases hle : 2 ≤ c.length
  · rw [if_pos hle] at h2
    cases h2
    exact hle
  · rw [if_neg hle] at h2
    cases h2

/-- C2 (amended): with the line-delimited boundary strategy, any two
partitionings of the same logical input into non-empty chunks yield, under a
full drain with enough fuel, identical sequences of records: chunk boundaries
are invisible in the output. -/
theorem rechunk_invariance_line (d : Nat) (cs1 cs2 : List MemoryBlock)
    (fuel1 fuel2 : Nat)
    (h1 : ∀ c ∈ cs1, c ≠ []) (h2 : ∀ c ∈ cs2, c ≠ [])
    (hjoin : cs1.flatten = cs2.flatten)
    (hf1 : cs1.flatten.length < fuel1) (hf2 : cs2.flatten.length < fuel2) :
    (drain (lineFind d) fuel1 ⟨[], [], cs1⟩).1
      = (drain (lineFind d) fuel2 ⟨[], [], cs2⟩).1 := by
  have e1 := (drain_line (d := d) fuel1 [] cs1 h1 (by simpa using hf1)).1
  have e2 := (drain_line (d := d) fuel2 [] cs2 h2 (by simpa using hf2)).1
  rw [e1, e2]
  simp [hjoin]

/-- Witness for C2 (amended): chunkings `[4]` and `[1,1,1,1]` of the same
bytes drain to the same records. -/
theorem rechunk_invariance_line_witness :
    (drain (lineFind 10) 10 ⟨[], [], [[97, 98, 10, 99]]⟩).1
      = (drain (lineFind 10) 10 ⟨[], [], [[97], [98], [10], [99]]⟩).1 :=
  rechunk_invariance_line 10 [[97, 98, 10, 99]] [[97], [98], [10], [99]] 10 10
    (by decide) (by decide) (by decide) (by decide) (by decide)

/-- C3: with the line-delimited strategy (delimiter `\n` = byte 10, record
excludes the delimiter), draining the chunks `["ab", "c\nde", "f\n"]` emits
exactly `"abc"` and `"def"`, then the clean end of sequence. -/
theorem line_delimited_example_drain :
    lineDrainEmitted 10 20 [[97, 98], [99, 10, 100, 101], [102, 10]]
      = ([[97, 98, 99], [100, 101, 102]], DrainStatus.ended) := by decide

/-- C4: on every successful `next` call (under any strategy returning
in-chunk offsets), the returned bytes are the previously accumulated chunks
concatenated in order followed by the first `offset` bytes of the current
chunk; the record's length is the computed record length, and when no chunks
were accumulated the record is exactly the first `record_length` bytes of the
current chunk with `record_length = offset`. -/
theorem extract_record_is_concatenation (find : MemoryBlock → Bool → Option Nat)
    (cur : MemoryBlock) (stream : List MemoryBlock) (bytes : MemoryBlock)
    (st2 : ReaderState)
    (hfind : ∀ c (f : Bool) i, find c f = some i → i ≤ c.length)
    (h : next find ⟨cur, [], stream⟩ = .record bytes st2) :
    ∃ cur2 prev2 stream2 recLen off,
      loadNextRecordLoop find stream cur [] 0 true
        = .found cur2 prev2 stream2 recLen off ∧
      bytes = extractRecord cur2 prev2 recLen off ∧
      bytes = prev2.flatten ++ cur2.take off ∧
      bytes.length = recLen ∧
      (prev2 = [] → bytes = cur2.take recLen ∧ recLen = off) ∧
      st2 = ⟨cur2.drop off, [], stream2⟩ := by
  cases hl : loadNextRecordLoop find stream cur [] 0 true with
  | endOfData => simp [next, hl] at h
  | truncated n => simp [next, hl] at h
  | found cur2 prev2 stream2 recLen off =>
    simp only [next, hl] at h
    injection h with hb hst
    subst hb
    subst hst
    obtain ⟨mid, hmid, hlen, hoff⟩ :=
      loadNextRecordLoop_found_inv hfind stream cur [] 0 true hl
    rw [List.nil_append] at hmid
    subst hmid
    have htake : (cur2.take off).length = off := by
      rw [List.length_take]
      omega
    refine ⟨cur2, prev2, stream2, recLen, off, rfl, rfl, ?_, ?_, ?_, rfl⟩
    · by_cases hp : prev2 = []
      · subst hp
        have hro : recLen = off := by simpa using hlen
        simp [extractRecord, hro]
      · simp [extractRecord, hp]
    · by_cases hp : prev2 = []
      · subst hp
        have hro : recLen = off := by simpa using hlen
        have he : extractRecord cur2 [] recLen off = cur2.take recLen := by
          simp [extractRecord]
        rw [he, List.length_take]
        omega
      · simp only [extractRecord, if_neg hp, List.length_append, htake]
        simp only [Nat.zero_add] at hlen
        omega
    · intro hp
      subst hp
      have hro : recLen = off := by simpa using hlen
      exact ⟨by simp [extractRecord], hro⟩

/-- Witness for C4: one concrete successful call, with the line strategy. -/
theorem extract_record_is_concatenation_witness :
    ∃ cur2 prev2 stream2 recLen off,
      loadNextRecordLoop (lineFind 10) [[97, 10]] [] [] 0 true
        = .found cur2 prev2 stream2 recLen off ∧
      ([97, 10] : MemoryBlock) = extractRecord cur2 prev2 recLen off ∧
      ([97, 10] : MemoryBlock) = prev2.flatten ++ cur2.take off ∧
      ([97, 10] : MemoryBlock).length = recLen ∧
      (prev2 = [] → ([97, 10] : MemoryBlock) = cur2.take recLen ∧ recLen = off) ∧
      (⟨[], [], []⟩ : ReaderState) = ⟨cur2.drop off, [], stream2⟩ :=
  extract_record_is_concatenation (lineFind 10) [] [[97, 10]] [97, 10] ⟨[], [], []⟩
    (lineFind_le 10) (by decide)

/-- C5 (counterexample): for the input `"ab"` with no trailing delimiter the
drain raises a truncation error and produces no records, so the concatenation
of the drained records is empty and differs from the input. -/
theorem drain_concat_counterexample :
    (drain (lineFind 10) 5 ⟨[], [], [[97, 98]]⟩).1.flatten = [] ∧
    (drain (lineFind 10) 5 ⟨[], [], [[97, 98]]⟩).1.flatten
      ≠ ([[97, 98]] : List MemoryBlock).flatten := by
  constructor <;> decide

/-- C5 (amended): for every input and every partitioning into non-empty
chunks, the concatenation of the drained records (delimiters included, per
the reader's convention) followed by the unterminated leftover equals the
original input; when the drain reaches the clean end of sequence the
concatenation alone equals the input. -/
theorem drain_concat_line (d : Nat) (cs : List MemoryBlock) (fuel : Nat)
    (hne : ∀ c ∈ cs, c ≠ []) (hfuel : cs.flatten.length < fuel) :
    (drain (lineFind d) fuel ⟨[], [], cs⟩).1.flatten
        ++ lineLeftoverFlat d cs.flatten = cs.flatten ∧
    ((drain (lineFind d) fuel ⟨[], [], cs⟩).2 = .ended →
      (drain (lineFind d) fuel ⟨[], [], cs⟩).1.flatten = cs.flatten) := by
  obtain ⟨e1, e2⟩ := drain_line fuel [] cs hne (by simpa using hfuel)
  rw [List.nil_append] at e1 e2
  have hjoin := lineFlatGo_join (d := d) cs.flatten []
  constructor
  · rw [e1, lineRecordsFlat, lineLeftoverFlat]
    simpa using hjoin
  · intro hend
    have hleft : lineLeftoverFlat d cs.flatten = [] := e2.mp hend
    rw [lineLeftoverFlat] at hleft
    rw [e1, lineRecordsFlat]
    simpa [hleft] using hjoin

/-- Witness for C5 (amended) on the cleanly terminated input `"a\n"`. -/
theorem drain_concat_line_witness :
    (drain (lineFind 10) 5 ⟨[], [], [[97, 10]]⟩).1.flatten
        ++ lineLeftoverFlat 10 ([[97, 10]] : List MemoryBlock).flatten
        = ([[97, 10]] : List MemoryBlock).flatten ∧
    ((drain (lineFind 10) 5 ⟨[], [], [[97, 10]]⟩).2 = .ended →
      (drain (lineFind 10) 5 ⟨[], [], [[97, 10]]⟩).1.flatten
        = ([[97, 10]] : List MemoryBlock).flatten) :=
  drain_concat_line 10 [[97, 10]] 5 (by decide) (by decide)

/-- C6: `next` signals end of sequence exactly when the boundary strategy
finds nothing in the buffered current chunk, the current chunk is empty (no
partial record bytes buffered) and the chunk then pulled from the stream is
empty.  In particular a clean end of input between records is never reported
as a truncation error. -/
theorem next_endOfData_iff (find : MemoryBlock → Bool → Option Nat)
    (st : ReaderState) :
    next find st = .endOfData ↔
      (find st.currentChunk true = none ∧ st.currentChunk = [] ∧
        (st.stream = [] ∨ ∃ rest, st.stream = [] :: rest)) := by
  obtain ⟨cur, prev, stream⟩ := st
  have hiff : next find ⟨cur, prev, stream⟩ = .endOfData ↔
      loadNextRecordLoop find stream cur prev 0 true = .endOfData := by
    simp only [next]
    cases loadNextRecordLoop find stream cur prev 0 true <;> simp
  rw [hiff]
  cases stream with
  | nil =>
    cases hf : find cur true with
    | some off =>
      rw [loadNextRecordLoop, hf]
      simp [hf]
    | none =>
      rw [loadNextRecordLoop, hf]
      by_cases hcur : cur = [] <;> simp [hcur, hf]
  | cons c rest =>
    cases hf : find cur true with
    | some off =>
      rw [loadNextRecordLoop, hf]
      simp [hf]
    | none =>
      by_cases hc : c = []
      · subst hc
        rw [loadNextRecordLoop, hf]
        by_cases hcur : cur = [] <;> simp [hcur, hf]
      · rw [loadNextRecordLoop, hf]
        simp only [if_neg hc]
        have hne := loadNextRecordLoop_ne_endOfData find rest c (prev ++ [cur])
          (0 + cur.length) false hc
        simp only [Nat.zero_add] at hne
        simp [hne, hc, hf]

/-- C7 (counterexample): a counting source starting at 5 produces 5, 6, 7
with its third call, after which `record_position` writes 8 — the
about-to-be-produced counter after the post-increment — not 7 as claimed. -/
theorem count_position_example_counterexample :
    produceN ⟨5, 5, none⟩ 3 = [Data.int 5, Data.int 6, Data.int 7] ∧
    countRecordPosition (stepN ⟨5, 5, none⟩ 3) [] ≠ [TapeVal.int 7] ∧
    countRecordPosition (stepN ⟨5, 5, none⟩ 3) [] = [TapeVal.int 8] := by
  refine ⟨by decide, by decide, by decide⟩

/-- C7 (amended): after producing 5, 6, 7 the counting source's
`record_position` writes 8, the about-to-be-produced counter value; a fresh
instance reloading that tape next produces 8, then 9, then 10. -/
theorem count_position_example :
    produceN ⟨5, 5, none⟩ 3 = [Data.int 5, Data.int 6, Data.int 7] ∧
    countRecordPosition (stepN ⟨5, 5, none⟩ 3) [] = [TapeVal.int 8] ∧
    (countReloadPosition ⟨0, 0, none⟩ [TapeVal.int 8]).map (fun p => produceN p.1 3)
      = some [Data.int 8, Data.int 9, Data.int 10] := by
  refine ⟨by decide, by decide, by decide⟩

/-- `splitOn` at the empty list. -/
theorem splitOn_nil_eq (sep : Nat) : ([] : List Nat).splitOn sep = [[]] := by
  simp [List.splitOn, List.splitOnP_nil]

/-- `splitOn` at a leading separator. -/
theorem splitOn_cons_self (sep : Nat) (rest : List Nat) :
    (sep :: rest).splitOn sep = [] :: rest.splitOn sep := by
  simp [List.splitOn, List.splitOnP_cons]

/-- `splitOn` at a leading non-separator byte. -/
theorem splitOn_cons_ne (sep c : Nat) (rest : List Nat) (hc : c ≠ sep) :
    (c :: rest).splitOn sep = (rest.splitOn sep).modifyHead (c :: ·) := by
  simp [List.splitOn, List.splitOnP_cons, hc]

/-- `splitOn` always yields at least one (possibly empty) run. -/
theorem splitOn_ne_nil (sep : Nat) : ∀ l : List Nat, l.splitOn sep ≠ [] := by
  intro l
  induction l with
  | nil => rw [splitOn_nil_eq]; simp
  | cons c rest ih =>
    by_cases hc : c = sep
    · subst hc
      rw [splitOn_cons_self]
      simp
    · rw [splitOn_cons_ne sep c rest hc]
      rcases h : rest.splitOn sep with _ | ⟨r, rs⟩
      · exact absurd h ih
      · simp [List.modifyHead]

theorem reverse_isEmpty_false {run : List Nat} (hr : run ≠ []) :
    run.reverse.isEmpty = false := by
  cases hrv : run.reverse with
  | nil => exact absurd (by simpa using hrv) hr
  | cons x xs => rfl

/-- The split scan loop emits exactly the non-empty entries of `splitOn`,
with the pending run prefixed onto the first one. -/
theorem splitGo_eq_filter (sep : Nat) :
    ∀ (s run r : List Nat) (rs : List (List Nat)),
      s.splitOn sep = r :: rs →
      splitGo sep s run
        = ((run.reverse ++ r) :: rs).filter (fun x => !x.isEmpty) := by
  intro s
  induction s with
  | nil =>
    intro run r rs h
    rw [splitOn_nil_eq] at h
    cases h
    by_cases hr : run = []
    · subst hr
      simp [splitGo]
    · simp [splitGo, hr, List.filter_cons, reverse_isEmpty_false hr]
  | cons c rest ih =>
    intro run r rs h
    by_cases hc : c = sep
    · subst hc
      rw [splitOn_cons_self] at h
      injection h with hA hB
      rcases h2 : rest.splitOn c with _ | ⟨r2, rs2⟩
      · exact absurd h2 (splitOn_ne_nil c rest)
      · have hrec := ih [] r2 rs2 h2
        simp only [List.reverse_nil, List.nil_append] at hrec
        rw [← hA, ← hB, h2]
        by_cases hr : run = []
        · subst hr
          simp only [splitGo]
          simp [hrec, List.filter_cons]
        · simp only [splitGo]
          simp [hr, hrec, List.filter_cons, reverse_isEmpty_false hr]
    · rw [splitOn_cons_ne sep c rest hc] at h
      rcases h2 : rest.splitOn sep with _ | ⟨r2, rs2⟩
      · exact absurd h2 (splitOn_ne_nil sep rest)
      · rw [h2] at h
        simp only [List.modifyHead] at h
        injection h with hA hB
        have hrec := ih (c :: run) r2 rs2 h2
        rw [← hA, ← hB]
        simp only [splitGo, if_neg hc]
        rw [hrec]
        simp [List.reverse_cons, List.append_assoc]

/-- C8: `split` yields exactly the maximal non-empty runs between separator
occurrences, in order — the non-empty entries of `splitOn` — and on the two
reference inputs produces `["x","y","z"]` and `["x"]`. -/
theorem split_maximal_nonempty_runs :
    (∀ (sep : Nat) (s : List Nat),
        split sep s = (s.splitOn sep).filter (fun r => !r.isEmpty)) ∧
    split 97 [120, 97, 121, 97, 122] = [[120], [121], [122]] ∧
    split 97 [97, 97, 120, 97] = [[120]] := by
  refine ⟨?_, by decide, by decide⟩
  intro sep s
  rcases h : s.splitOn sep with _ | ⟨r, rs⟩
  · exact absurd h (splitOn_ne_nil sep s)
  · rw [split, splitGo_eq_filter sep s [] r rs h]
    simp


/-- C9: recording the position of a counting source onto a fresh tape and
reloading it into a fresh instance of the same source type succeeds and makes
the fresh instance produce exactly the same subsequent values, for any number
of steps, as the original produces from where it left off. -/
theorem count_record_reload_roundtrip (c st c2 st2 : Int) (fn : Option String)
    (n : Nat) :
    countReloadPosition ⟨c2, st2, fn⟩ (countRecordPosition ⟨c, st, fn⟩ [])
        = some (⟨c, st2, fn⟩, []) ∧
    produceN ⟨c, st2, fn⟩ n = produceN ⟨c, st, fn⟩ n := by
  exact ⟨rfl, produceN_start_irrelevant n c st2 st fn⟩

/-- C10: the counting source never signals end of data: every `next` returns
a value — the counter wrapped per the configured field name — and `n` pulls
always yield `n` values. -/
theorem count_source_never_ends (s : CountState) (n : Nat) :
    (countNext s).1 = some (match s.fieldName with
      | some k => Data.dict k s.counter
      | none => Data.int s.counter) ∧
    (countNext s).1 ≠ none ∧
    (produceN s n).length = n := by
  refine ⟨rfl, by simp [countNext], ?_⟩
  induction n generalizing s with
  | zero => rfl
  | succ m ih =>
    simp only [produceN, countNext, List.length_cons]
    rw [ih]

end Fairseq2
